import Mathlib

/- Verification of the go-cmap concurrent map (package cmap: cmap.go, bucket.go,
   pair.go, segment.go) against its natural-language specification.

   The Go code is shallowly embedded: pairs become records, a bucket's singly
   linked chain becomes a `List`, a segment's bucket slice becomes a
   `List Bucket`, uint64 arithmetic is `Nat` arithmetic modulo `2 ^ 64`,
   fallible code returns `Except`/`Option`, and pointer mutation becomes
   functional record update with write-back.  The `sync.Mutex` held by a
   segment is modelled separately (see the lock-trace definitions) because the
   data path of the Go code never branches on the lock.  The pair
   redistributor is an interface in the Go code whose default implementation
   is not part of the sources under verification; operations therefore carry
   it as an explicit function value. -/

namespace GoCmap

/-- Modulus of Go's `uint64` arithmetic. -/
def U64 : Nat := 2 ^ 64

/-- Modelled from the spec: the constant MAX_CONCURRENCY (its defining file is
not among the sources; the spec only requires a fixed positive bound on the
shard count).  The value used by the upstream project is 65536. -/
def MAX_CONCURRENCY : Int := 65536

/-- Modelled from the spec: the constant DEFAULT_BUCKET_NUMBER, the default
chain-array length of a shard (its defining file is not among the sources).
The value used by the upstream project is 16. -/
def DEFAULT_BUCKET_NUMBER : Int := 16

/-- The error taxonomy of errors.go: IllegalParameterError,
IllegalPairTypeError and PairRedistributorError, each carrying its formatted
message. -/
inductive CmapErr where
  | illegalParameter (msg : String)
  | illegalPairType (msg : String)
  | pairRedistributor (msg : String)
  deriving DecidableEq

/-- newIllegalParameterError (errors.go): prefixes the message exactly as the
Go `fmt.Sprintf` does. -/
def newIllegalParameterError (errMsg : String) : CmapErr :=
  CmapErr.illegalParameter ("concurrent map: illegal parameter: " ++ errMsg)

/-- newPairRedistributorError (errors.go). -/
def newPairRedistributorError (errMsg : String) : CmapErr :=
  CmapErr.pairRedistributor ("concurrent map: failing pair redistribution: " ++ errMsg)

/-- A key/value node (type `pair` of pair.go): immutable key, immutable hash,
mutable element.  The `next` link of the Go struct is represented by the
node's position in the chain list of its bucket; the element is stored
directly (the Go code guarantees it is never nil: `newPair` and `SetElement`
both reject nil). -/
structure GoPair (α : Type) where
  key : String
  hash : Nat
  element : α
  deriving DecidableEq

/-- newPair (pair.go): builds a pair computing its hash once via the external
hash function; a nil element (modelled as `none`) is rejected with an
IllegalParameterError. -/
def newPair {α : Type} (hashFn : String → Nat) (key : String)
    (element : Option α) : Except CmapErr (GoPair α) :=
  match element with
  | none => Except.error (newIllegalParameterError ("element is nil"))
  | some v => Except.ok { key := key, hash := hashFn key, element := v }

/-- pair.Copy (pair.go): `newPair(p.Key(), p.Element())` — a detached copy
with the same key and element, the hash recomputed from the key. -/
def copyPair {α : Type} (hashFn : String → Nat) (p : GoPair α) : GoPair α :=
  { key := p.key, hash := hashFn p.key, element := p.element }

/-- A hash bucket (type `bucket` of bucket.go): the chain hanging off
`firstValue` as a list (the `placeholder` sentinel for an empty bucket is the
empty list) and the `size` counter. -/
structure Bucket (α : Type) where
  chain : List (GoPair α)
  size : Nat
  deriving DecidableEq

def emptyBucket {α : Type} : Bucket α := { chain := [], size := 0 }

/-- The scan of bucket.Put looking for a node whose key matches. -/
def containsKey {α : Type} (k : String) (c : List (GoPair α)) : Bool :=
  c.any (fun p => p.key == k)

/-- The in-place `target.SetElement(p.Element())` of bucket.Put: the first
node whose key matches gets the new element; everything else is untouched. -/
def chainReplaceFirst {α : Type} (k : String) (v : α) :
    List (GoPair α) → List (GoPair α)
  | [] => []
  | p :: rest =>
      if p.key == k then { p with element := v } :: rest
      else p :: chainReplaceFirst k v rest

/-- bucket.Put (bucket.go), data path.  The `p == nil` guard is outside the
model (pairs are values here) and the optional external lock is modelled
separately.  Empty chain: publish `p`, count up.  Key already present:
replace that node's element in place, report not inserted.  Otherwise link
`p` in front of the old head, count up. -/
def bucketPut {α : Type} (p : GoPair α) (b : Bucket α) : Bool × Bucket α :=
  match b.chain with
  | [] => (true, { chain := [p], size := (b.size + 1) % U64 })
  | first :: rest =>
      if containsKey p.key (first :: rest) then
        (false, { b with chain := chainReplaceFirst p.key p.element (first :: rest) })
      else
        (true, { chain := p :: first :: rest, size := (b.size + 1) % U64 })

/-- The chain rebuild of bucket.Delete (bucket.go): scan for the first node
whose key matches; if found, the nodes after it are kept as they are and
every node before it is replaced by a fresh `Copy` linked onto the rebuilt
tail.  `none` means the key was absent. -/
def chainDelete {α : Type} (hashFn : String → Nat) (k : String) :
    List (GoPair α) → Option (List (GoPair α))
  | [] => none
  | p :: rest =>
      if p.key == k then some rest
      else Option.map (fun c => copyPair hashFn p :: c) (chainDelete hashFn k rest)

/-- bucket.Delete (bucket.go), data path: publish the rebuilt chain (or the
placeholder when it became empty) and decrement the uint64 size counter. -/
def bucketDelete {α : Type} (hashFn : String → Nat) (k : String)
    (b : Bucket α) : Bool × Bucket α :=
  match chainDelete hashFn k b.chain with
  | none => (false, b)
  | some c => (true, { chain := c, size := (b.size + (U64 - 1)) % U64 })

/-- bucket.Get (bucket.go): lock-free scan for the first node whose key
matches. -/
def bucketGet {α : Type} (k : String) (b : Bucket α) : Option (GoPair α) :=
  b.chain.find? (fun p => p.key == k)

/-- All pairs reachable from a bucket slice, in slice-then-chain order. -/
def bucketsContents {α : Type} : List (Bucket α) → List (GoPair α)
  | [] => []
  | b :: bs => b.chain ++ bucketsContents bs

/-- The PairRedistributor interface, fused: segment.redistribute always calls
`UpdateThreshold`, `CheckBucketStatus` and `Redistribe` in sequence on
`(pairTotal, bucketSize, buckets)`, so the trio is one function here.  A
panic anywhere in the sequence is `Except.error msg` where `msg` is the
panic payload rendered as a string. -/
def Redistrib (α : Type) : Type :=
  Nat → Nat → List (Bucket α) → Except String (List (Bucket α) × Bool)

/-- A hash segment (type `segment` of segment.go): bucket slice, its cached
length, the pair total, and the pair redistributor.  The `sync.Mutex` is
modelled separately by the lock traces below. -/
structure Segment (α : Type) where
  buckets : List (Bucket α)
  bucketsLen : Nat
  pairTotal : Nat
  redis : Redistrib α

/-- segment.redistribute (segment.go): run the redistributor; a panic is
recovered and converted to a PairRedistributorError, leaving the bucket
slice exactly as it was; on a changed result the bucket slice and its cached
length are replaced. -/
def segmentRedistribute {α : Type} (pairTotal bucketSize : Nat)
    (s : Segment α) : Segment α × Option CmapErr :=
  match s.redis pairTotal bucketSize s.buckets with
  | Except.error msg => (s, some (newPairRedistributorError msg))
  | Except.ok (newBuckets, changed) =>
      if changed then
        ({ s with buckets := newBuckets, bucketsLen := newBuckets.length }, none)
      else (s, none)

/-- segment.Put (segment.go), data path: route to the bucket
`p.Hash() % bucketsLen`, delegate to bucket.Put with no external lock, and on
an insert bump the pair total and run `redistribute(newTotal, b.Size())`,
whose returned error is discarded by the Go code.  The returned error is the
one from bucket.Put (always nil here).  The mutex operations of this method
(`Lock` at entry and, erroneously, `Lock` again before returning) are
modelled by `segmentPutLockTrace`. -/
def segmentPut {α : Type} (p : GoPair α) (s : Segment α) :
    (Bool × Option CmapErr) × Segment α :=
  let idx := p.hash % s.bucketsLen
  let res := bucketPut p (s.buckets.getD idx emptyBucket)
  let s1 : Segment α := { s with buckets := s.buckets.set idx res.2 }
  if res.1 then
    let newTotal := (s1.pairTotal + 1) % U64
    ((true, none),
      (segmentRedistribute newTotal res.2.size { s1 with pairTotal := newTotal }).1)
  else ((false, none), s1)

/-- segment.GetWithHash (segment.go), data path: snapshot the bucket at
`keyHash % bucketsLen` (under a brief lock, modelled by
`segmentGetLockTrace`), then a lock-free bucket.Get. -/
def segmentGetWithHash {α : Type} (k : String) (keyHash : Nat)
    (s : Segment α) : Option (GoPair α) :=
  bucketGet k (s.buckets.getD (keyHash % s.bucketsLen) emptyBucket)

/-- segment.Get (segment.go): GetWithHash with a freshly computed hash. -/
def segmentGet {α : Type} (hashFn : String → Nat) (k : String)
    (s : Segment α) : Option (GoPair α) :=
  segmentGetWithHash k (hashFn k) s

/-- segment.Delete (segment.go), data path: route by `hash(key)`, delegate to
bucket.Delete with no external lock, and on success decrement the pair total
and run redistribute (error again discarded).  Its mutex operations (Lock,
then Unlock at the end) are `segmentDeleteLockTrace`. -/
def segmentDelete {α : Type} (hashFn : String → Nat) (k : String)
    (s : Segment α) : Bool × Segment α :=
  let idx := hashFn k % s.bucketsLen
  let res := bucketDelete hashFn k (s.buckets.getD idx emptyBucket)
  if res.1 then
    let s1 : Segment α := { s with buckets := s.buckets.set idx res.2 }
    let newTotal := (s1.pairTotal + (U64 - 1)) % U64
    (true, (segmentRedistribute newTotal res.2.size { s1 with pairTotal := newTotal }).1)
  else (false, s)

/-- Modelled from the spec: a per-chain length cap used by the default
redistributor's overload check (constant absent from src/). -/
def DEFAULT_BUCKET_MAX_SIZE : Nat := 16

/-- Rehash of a pair list into `n` fresh buckets by `hash mod n`, used by the
spec-modelled default redistributor. -/
def rehashInto {α : Type} (n : Nat) (ps : List (GoPair α)) : List (Bucket α) :=
  (List.range n).map (fun i =>
    { chain := ps.filter (fun p => p.hash % n == i)
      size := (ps.filter (fun p => p.hash % n == i)).length % U64 })

/-- Modelled from the spec: the default pair redistributor
(`newDefaultPairRedistributor`, whose file is absent from src/).  Following
the spec: Overloaded when the pair total exceeds the growth threshold
`chainArrayLength * loadFactor` (load factor 3/4) or a single chain exceeds
a per-chain cap, then double and rehash; Underloaded when the total is under
a strictly smaller shrink threshold (hysteresis), then halve (with a floor)
and rehash; otherwise leave the array unchanged. -/
def defaultRedistributor {α : Type} : Redistrib α := fun pairTotal bucketSize bs =>
  let len := bs.length
  if 3 * len < 4 * pairTotal ∨ DEFAULT_BUCKET_MAX_SIZE < bucketSize then
    Except.ok (rehashInto (2 * len) (bucketsContents bs), true)
  else if 16 * pairTotal < 3 * len ∧ 1 < len then
    Except.ok (rehashInto (len / 2) (bucketsContents bs), true)
  else Except.ok (bs, false)

/-- newSegment (segment.go): a negative bucketNumber falls back to
DEFAULT_BUCKET_NUMBER, a missing redistributor falls back to the default
one; allocates `bucketNumber` empty buckets. -/
def newSegment {α : Type} (bucketNumber : Int)
    (pairRedistributor : Option (Redistrib α)) : Segment α :=
  let bn : Nat :=
    if bucketNumber < 0 then DEFAULT_BUCKET_NUMBER.toNat else bucketNumber.toNat
  { buckets := List.replicate bn emptyBucket
    bucketsLen := bn
    pairTotal := 0
    redis := pairRedistributor.getD defaultRedistributor }

/-- myConcurrentMap.findSegment (cmap.go), as an index: concurrency 1 always
routes to segment 0; otherwise the 64-bit hash is folded to a uint32 (the
upper 32 bits when it exceeds math.MaxUint32, a plain uint32 truncation
otherwise), shifted right by 16, and taken modulo `concurrency - 1`. -/
def findSegmentIndex (concurrency : Nat) (keyHash : Nat) : Nat :=
  if concurrency = 1 then 0
  else
    let keyHash32 : Nat :=
      if 4294967295 < keyHash then (keyHash >>> 32) % 4294967296
      else keyHash % 4294967296
    (keyHash32 >>> 16) % (concurrency - 1)

/-- The facade (type `myConcurrentMap` of cmap.go): the fixed segment slice,
its length `concurrency`, and the approximate global pair counter. -/
structure CMap (α : Type) where
  concurrency : Nat
  segments : List (Segment α)
  total : Nat

/-- Out-of-range default for segment lookups; under the well-formedness
invariant every index used is in range, so this value is never produced
(the Go code would panic instead). -/
def dummySegment {α : Type} : Segment α :=
  { buckets := [], bucketsLen := 0, pairTotal := 0
    redis := fun _ _ bs => Except.ok (bs, false) }

/-- myConcurrentMap.Put (cmap.go): build the pair (nil element rejected),
route by the pair's hash, delegate to segment.Put, and on an insert bump the
global uint64 counter. -/
def cmapPut {α : Type} (hashFn : String → Nat) (k : String)
    (element : Option α) (m : CMap α) : (Bool × Option CmapErr) × CMap α :=
  match newPair hashFn k element with
  | Except.error err => ((false, some err), m)
  | Except.ok p =>
      let i := findSegmentIndex m.concurrency p.hash
      let res := segmentPut p (m.segments.getD i dummySegment)
      let m1 : CMap α := { m with segments := m.segments.set i res.2 }
      (res.1, if res.1.1 then { m1 with total := (m1.total + 1) % U64 } else m1)

/-- myConcurrentMap.Get (cmap.go): hash once, route, delegate to
segment.GetWithHash, and return the found pair's element (nil when absent). -/
def cmapGet {α : Type} (hashFn : String → Nat) (k : String) (m : CMap α) :
    Option α :=
  Option.map GoPair.element
    (segmentGetWithHash k (hashFn k)
      (m.segments.getD (findSegmentIndex m.concurrency (hashFn k)) dummySegment))

/-- myConcurrentMap.Get with the state threaded explicitly: Get performs no
write to the map, so the state it returns is the state it was given. -/
def cmapGetSt {α : Type} (hashFn : String → Nat) (k : String) (m : CMap α) :
    Option α × CMap α :=
  (cmapGet hashFn k m, m)

/-- myConcurrentMap.Delete (cmap.go): route by `hash(key)`, delegate to
segment.Delete, and on success decrement the global uint64 counter. -/
def cmapDelete {α : Type} (hashFn : String → Nat) (k : String) (m : CMap α) :
    Bool × CMap α :=
  let i := findSegmentIndex m.concurrency (hashFn k)
  let res := segmentDelete hashFn k (m.segments.getD i dummySegment)
  let m1 : CMap α := { m with segments := m.segments.set i res.2 }
  if res.1 then (true, { m1 with total := (m1.total + (U64 - 1)) % U64 })
  else (false, m1)

/-- myConcurrentMap.Len (cmap.go): the approximate global counter. -/
def cmapLen {α : Type} (m : CMap α) : Nat := m.total

/-- NewConcurrentMap (cmap.go): reject a concurrency that is too small or too
large, otherwise allocate `concurrency` identical fresh segments. -/
def NewConcurrentMap {α : Type} (concurrency : Int)
    (pairRedistributor : Option (Redistrib α)) : Except CmapErr (CMap α) :=
  if concurrency ≤ 0 then
    Except.error (newIllegalParameterError ("concurrency is too small"))
  else if MAX_CONCURRENCY < concurrency then
    Except.error (newIllegalParameterError ("concurrency is too large"))
  else
    Except.ok
      { concurrency := concurrency.toNat
        segments := List.replicate concurrency.toNat
          (newSegment DEFAULT_BUCKET_NUMBER pairRedistributor)
        total := 0 }

/-- One facade-level operation. -/
inductive Op (α : Type) where
  | put (k : String) (v : Option α)
  | del (k : String)
  | get (k : String)

/-- Apply one operation to the map state (outputs discarded). -/
def applyOp {α : Type} (hashFn : String → Nat) (m : CMap α) : Op α → CMap α
  | Op.put k v => (cmapPut hashFn k v m).2
  | Op.del k => (cmapDelete hashFn k m).2
  | Op.get k => (cmapGetSt hashFn k m).2

/-- Run a sequence of operations. -/
def runOps {α : Type} (hashFn : String → Nat) (ops : List (Op α))
    (m : CMap α) : CMap α :=
  ops.foldl (applyOp hashFn) m

/-- An operation that is neither a put nor a delete of key `k`. -/
def avoids {α : Type} (k : String) : Op α → Prop
  | Op.put q _ => q ≠ k
  | Op.del q => q ≠ k
  | Op.get _ => True

/-- A non-reentrant mutex: acquiring a held mutex blocks forever (`none`);
Go's `sync.Mutex` is not reentrant and nothing else ever unlocks a
segment's mutex. -/
def mutexLock (held : Bool) : Option Bool := if held then none else some true

/-- Releasing a mutex. -/
def mutexUnlock (_held : Bool) : Option Bool := some false

/-- The sequence of operations segment.Put performs on `s.lock` (segment.go):
`s.lock.Lock()` at entry, no lock operation in the body (`b.Put(p, nil)` is
called with a nil external lock), and `s.lock.Lock()` again immediately
before returning.  The result is the lock state after Put returns, `none`
when Put never returns. -/
def segmentPutLockTrace (held : Bool) : Option Bool :=
  (mutexLock held).bind mutexLock

/-- The sequence of lock operations segment.Delete performs on `s.lock`:
`Lock` at entry and `Unlock` before returning. -/
def segmentDeleteLockTrace (held : Bool) : Option Bool :=
  (mutexLock held).bind mutexUnlock

/-- The sequence of lock operations segment.GetWithHash performs on
`s.lock`: `Lock`, snapshot, `Unlock`. -/
def segmentGetLockTrace (held : Bool) : Option Bool :=
  (mutexLock held).bind mutexUnlock

/-- The spec's description of the 64-to-32-bit fold: take the upper 32 bits
when the hash exceeds the maximum 32-bit value, otherwise the hash itself
(which already fits 32 bits). -/
def fold32Spec (h : Nat) : Nat :=
  if 2 ^ 32 - 1 < h then (h / 2 ^ 32) % 2 ^ 32 else h

/-- The spec's description of the shard-routing algorithm: shard 0 when
concurrency is 1, otherwise the folded hash shifted right by 16, modulo
`concurrency - 1`. -/
def findSegmentIndexSpec (concurrency : Nat) (h : Nat) : Nat :=
  if concurrency = 1 then 0 else (fold32Spec h / 2 ^ 16) % (concurrency - 1)

/-- All pairs stored in a segment. -/
def segContents {α : Type} (s : Segment α) : List (GoPair α) :=
  bucketsContents s.buckets

/-- Well-formedness of a segment: the cached length is the real length and
positive, every stored pair carries the hash of its key and sits in the
bucket selected by `hash mod length`, and no key occurs twice in the
segment. -/
def SegWF {α : Type} (hashFn : String → Nat) (s : Segment α) : Prop :=
  s.bucketsLen = s.buckets.length ∧ 0 < s.buckets.length ∧
  (∀ i, i < s.buckets.length → ∀ p ∈ (s.buckets.getD i emptyBucket).chain,
      p.hash = hashFn p.key ∧ p.hash % s.buckets.length = i) ∧
  ((segContents s).map GoPair.key).Nodup

/-- The spec's contract for `Redistribe` (spec section 4.3): whenever it
reports a changed bucket slice, the new slice holds exactly the old pairs
(rehashed), is nonempty, and places every pair at `hash mod newLength`. -/
def GoodRedis {α : Type} (r : Redistrib α) : Prop :=
  ∀ pairTotal bucketSize bs newBuckets,
    r pairTotal bucketSize bs = Except.ok (newBuckets, true) →
    List.Perm (bucketsContents newBuckets) (bucketsContents bs) ∧
    0 < newBuckets.length ∧
    ∀ i, i < newBuckets.length →
      ∀ p ∈ (newBuckets.getD i emptyBucket).chain, p.hash % newBuckets.length = i

/-- Well-formedness of the whole map: a positive segment count matching the
slice length, and well-formed segments. -/
def MapWF {α : Type} (hashFn : String → Nat) (m : CMap α) : Prop :=
  0 < m.concurrency ∧ m.segments.length = m.concurrency ∧
  ∀ s ∈ m.segments, SegWF hashFn s

/-- Every segment's redistributor obeys the spec contract. -/
def AllGood {α : Type} (m : CMap α) : Prop :=
  ∀ s ∈ m.segments, GoodRedis s.redis

/-- The segment that key `k` routes to holds a pair with key `k` and
element `v`. -/
def HasKV {α : Type} (hashFn : String → Nat) (k : String) (v : α)
    (m : CMap α) : Prop :=
  ∃ p ∈ segContents
      (m.segments.getD (findSegmentIndex m.concurrency (hashFn k)) dummySegment),
    p.key = k ∧ p.element = v

/-- A hash function for concrete witnesses. -/
def hashZero : String → Nat := fun _ => 0

/-- A redistributor that never changes anything; it vacuously satisfies the
spec contract. -/
def trivialRedis {α : Type} : Redistrib α := fun _ _ bs => Except.ok (bs, false)

/-- A redistributor whose every invocation panics. -/
def panicRedis {α : Type} : Redistrib α := fun _ _ _ => Except.error ("boom")

/-- A concrete well-formed one-segment map for witnesses. -/
def mW : CMap Nat :=
  { concurrency := 1
    segments := [{ buckets := List.replicate 16 emptyBucket, bucketsLen := 16
                   pairTotal := 0, redis := trivialRedis }]
    total := 0 }

/-- The concrete map NewConcurrentMap builds for concurrency 2. -/
def m2W : CMap Nat :=
  { concurrency := 2
    segments := List.replicate 2 (newSegment DEFAULT_BUCKET_NUMBER none)
    total := 0 }

/-- A concrete pair. -/
def pP : GoPair Nat := { key := "a", hash := 0, element := 1 }

/-- A concrete one-bucket segment whose redistributor always panics. -/
def sP : Segment Nat :=
  { buckets := [emptyBucket], bucketsLen := 1, pairTotal := 0, redis := panicRedis }

/-- The state `segmentPut pP sP` reaches just before its redistribute step,
and in which it ends, the redistribute attempt having failed. -/
def sP2 : Segment Nat :=
  { buckets := [{ chain := [pP], size := 1 }], bucketsLen := 1, pairTotal := 1
    redis := panicRedis }

/-- A concrete two-node bucket for the delete witness. -/
def bW : Bucket Nat :=
  { chain := [{ key := "a", hash := 0, element := 1 },
              { key := "b", hash := 0, element := 2 }]
    size := 2 }

/-- A concrete bucket containing the key "a", for the put-update witness. -/
def bW2 : Bucket Nat :=
  { chain := [{ key := "c", hash := 0, element := 3 },
              { key := "a", hash := 0, element := 1 }]
    size := 2 }

/- ------------------------------------------------------------------ -/
/- Theorems.                                                          -/
/- ------------------------------------------------------------------ -/

/-- C1: the spec requires segment.Put to release the segment's exclusive
lock before returning, but the Go code executes `s.lock.Lock()` a second
time where the release should be: started with a free lock, Put blocks
forever on its own mutex and never returns (so the lock is never free after
a put), while segment.Delete correctly ends with the lock released. -/
theorem segmentPut_lock_not_released :
    segmentPutLockTrace false = none ∧
    segmentDeleteLockTrace false = some false := by
  constructor
  · rfl
  · rfl

/-- C4: the shard-routing function of the code coincides with the spec's
description of it (fold to 32 bits taking the upper half only above the
32-bit range, shift right 16, modulo concurrency - 1, with concurrency 1
pinned to shard 0) on every 64-bit hash. -/
theorem findSegment_matches_spec (c h : Nat) (hh : h < 2 ^ 64) :
    findSegmentIndex c h = findSegmentIndexSpec c h := by
  unfold findSegmentIndex findSegmentIndexSpec fold32Spec
  rcases eq_or_ne c 1 with hc | hc
  · simp [hc]
  · simp only [hc, if_false]
    congr 1
    have h32 : h >>> 32 = h / 2 ^ 32 := Nat.shiftRight_eq_div_pow h 32
    have h16 : ∀ x : Nat, x >>> 16 = x / 2 ^ 16 := fun x => Nat.shiftRight_eq_div_pow x 16
    rcases Nat.lt_or_ge 4294967295 h with hbig | hsmall
    · have hb : (2 : Nat) ^ 32 - 1 < h := by norm_num at hbig ⊢; omega
      have hdivlt : h / 2 ^ 32 < 2 ^ 32 := by
        apply Nat.div_lt_of_lt_mul
        calc h < 2 ^ 64 := hh
        _ = 2 ^ 32 * 2 ^ 32 := by norm_num
      rw [if_pos hbig, if_pos hb, h32, h16]
      rw [Nat.mod_eq_of_lt (by norm_num at hdivlt ⊢; omega),
        Nat.mod_eq_of_lt hdivlt]
    · have hb : ¬ ((2 : Nat) ^ 32 - 1 < h) := by norm_num at hsmall ⊢; omega
      rw [if_neg (by omega), if_neg hb, h16]
      rw [Nat.mod_eq_of_lt (by norm_num at hsmall ⊢; omega)]

/-- C4 witness. -/
theorem findSegment_matches_spec_witness :
    5 < 2 ^ 64 ∧ findSegmentIndex 3 5 = findSegmentIndexSpec 3 5 :=
  ⟨by norm_num, findSegment_matches_spec 3 5 (by norm_num)⟩

/-- C6: putting a nil element always fails with the IllegalParameterError
produced for a nil element, leaves the map state exactly unchanged, and
leaves len() unchanged. -/
theorem put_nil_fails_invalid_parameter {α : Type} (hashFn : String → Nat)
    (k : String) (m : CMap α) :
    cmapPut hashFn k none m =
      ((false, some (newIllegalParameterError ("element is nil"))), m) ∧
    cmapLen (cmapPut hashFn k (none : Option α) m).2 = cmapLen m := by
  constructor
  · rfl
  · rfl

/-- C9: Get threads the map state through unchanged (it performs no write),
so repeated gets of the same key with no intervening mutation return the
same result. -/
theorem get_idempotent_no_mutation {α : Type} (hashFn : String → Nat)
    (k : String) (m : CMap α) :
    (cmapGetSt hashFn k m).2 = m ∧
    (cmapGetSt hashFn k (cmapGetSt hashFn k m).2).1 = (cmapGetSt hashFn k m).1 := by
  constructor
  · rfl
  · rfl

/-- Replacing the element of the first matching node, in the decomposed
form: the nodes before the first match are untouched, the match keeps its
key and hash, the tail is untouched. -/
theorem chainReplaceFirst_eq_of {α : Type} (k : String) (v : α)
    (c1 : List (GoPair α)) (t : GoPair α) (c2 : List (GoPair α))
    (h1 : ∀ q ∈ c1, q.key ≠ k) (ht : t.key = k) :
    chainReplaceFirst k v (c1 ++ t :: c2) = c1 ++ { t with element := v } :: c2 := by
  induction c1 with
  | nil => simp [chainReplaceFirst, ht]
  | cons q rest ih =>
      have hqb : (q.key == k) = false := by simpa using h1 q (by simp)
      have ih' := ih (fun x hx => h1 x (by simp [hx]))
      simp only [List.cons_append, chainReplaceFirst, hqb, Bool.false_eq_true,
        if_false, List.append_eq, ih']

/-- bucket.Put when the key is already present: not inserted, element
replaced in place, size untouched. -/
theorem bucketPut_update {α : Type} (p : GoPair α) (b : Bucket α)
    (h : containsKey p.key b.chain = true) :
    bucketPut p b =
      (false, { b with chain := chainReplaceFirst p.key p.element b.chain }) := by
  rcases hc : b.chain with _ | ⟨first, rest⟩
  · rw [hc] at h; simp [containsKey] at h
  · simp [bucketPut, hc, h, hc ▸ h]

/-- bucket.Put when the key is absent: inserted in front of the old head,
size counted up (uint64). -/
theorem bucketPut_insert {α : Type} (p : GoPair α) (b : Bucket α)
    (h : containsKey p.key b.chain = false) :
    bucketPut p b = (true, { chain := p :: b.chain, size := (b.size + 1) % U64 }) := by
  rcases hc : b.chain with _ | ⟨first, rest⟩
  · simp [bucketPut, hc]
  · simp [bucketPut, hc, hc ▸ h]

/-- C7: bucket.Put on an empty chain publishes the pair as head, counts up
and reports inserted; on a chain already holding the key (decomposed as
`c1 ++ t :: c2` with the first match `t`) it replaces only that node's
element, keeps the structure and the size, and reports not inserted;
otherwise it links the pair in front of the old head, counts up and reports
inserted. -/
theorem bucketPut_cases {α : Type} :
    (∀ (p : GoPair α) (b : Bucket α), b.chain = [] →
        bucketPut p b = (true, { chain := [p], size := (b.size + 1) % U64 })) ∧
    (∀ (p : GoPair α) (b : Bucket α) (c1 : List (GoPair α)) (t : GoPair α)
        (c2 : List (GoPair α)),
        b.chain = c1 ++ t :: c2 → (∀ q ∈ c1, q.key ≠ p.key) → t.key = p.key →
        bucketPut p b =
          (false, { b with chain := c1 ++ { t with element := p.element } :: c2 })) ∧
    (∀ (p : GoPair α) (b : Bucket α), b.chain ≠ [] →
        containsKey p.key b.chain = false →
        bucketPut p b = (true, { chain := p :: b.chain, size := (b.size + 1) % U64 })) := by
  refine ⟨?_, ?_, ?_⟩
  · intro p b h
    rcases b with ⟨chain, size⟩
    simp only at h
    subst h
    rfl
  · intro p b c1 t c2 hc h1 ht
    have hck : containsKey p.key b.chain = true := by
      rw [hc]; simp [containsKey]
      exact Or.inr (Or.inl ht)
    rw [bucketPut_update p b hck, hc, chainReplaceFirst_eq_of p.key p.element c1 t c2 h1 ht]
  · intro p b _ h
    exact bucketPut_insert p b h

/-- C7 witness: an empty bucket, an update on `bW2` (key "a" preceded by key
"c"), and a fresh insert on `bW2`. -/
theorem bucketPut_cases_witness :
    bucketPut pP (emptyBucket (α := Nat)) =
      (true, { chain := [pP], size := (0 + 1) % U64 }) ∧
    bucketPut pP bW2 =
      (false, { bW2 with chain :=
        [{ key := "c", hash := 0, element := 3 },
         { key := "a", hash := 0, element := 1 }].take 1 ++
          { key := "a", hash := 0, element := (1 : Nat) } :: [] }) ∧
    bucketPut { key := "z", hash := 0, element := (9 : Nat) } bW2 =
      (true, { chain := { key := "z", hash := 0, element := 9 } :: bW2.chain
               size := (bW2.size + 1) % U64 }) :=
  ⟨bucketPut_cases.1 pP emptyBucket rfl,
   by
    have := bucketPut_cases.2.1 pP bW2
      [{ key := "c", hash := 0, element := 3 }]
      { key := "a", hash := 0, element := 1 } []
      (by decide) (by decide) (by decide)
    simpa using this,
   bucketPut_cases.2.2 { key := "z", hash := 0, element := 9 } bW2
     (by decide) (by decide)⟩

/-- chainDelete finds nothing when the key is absent. -/
theorem chainDelete_none_of {α : Type} (hashFn : String → Nat) (k : String)
    (c : List (GoPair α)) (h : containsKey k c = false) :
    chainDelete hashFn k c = none := by
  induction c with
  | nil => rfl
  | cons p rest ih =>
      simp [containsKey] at h
      have ih' := ih (by simp [containsKey]; exact h.2)
      simp [chainDelete, h.1, ih']

/-- chainDelete when the key is present: the predecessors (the longest
key-avoiding front of the chain) are copied onto the part after the first
match. -/
theorem chainDelete_eq_take_drop {α : Type} (hashFn : String → Nat)
    (k : String) (c : List (GoPair α)) (h : containsKey k c = true) :
    chainDelete hashFn k c =
      some ((c.takeWhile (fun p => !(p.key == k))).map (copyPair hashFn) ++
        (c.dropWhile (fun p => !(p.key == k))).drop 1) := by
  induction c with
  | nil => simp [containsKey] at h
  | cons p rest ih =>
      by_cases hp : p.key = k
      · have hpb : (p.key == k) = true := by simpa using hp
        simp [chainDelete, hpb, List.takeWhile_cons, List.dropWhile_cons]
      · have hpb : (p.key == k) = false := by simpa using hp
        have hr : containsKey k rest = true := by
          simp [containsKey] at h ⊢
          rcases h with h | h
          · exact absurd h hp
          · exact h
        simp [chainDelete, hpb, ih hr, List.takeWhile_cons, List.dropWhile_cons]

/-- When no key occurs twice in the chain, the chain chainDelete rebuilds
keeps exactly the other nodes' keys and elements and no longer holds the
deleted key. -/
theorem chainDelete_some_kv {α : Type} (hashFn : String → Nat) (k : String) :
    ∀ (c c' : List (GoPair α)), chainDelete hashFn k c = some c' →
      (c.map GoPair.key).Nodup →
      c'.map (fun p => (p.key, p.element)) =
        (c.filter (fun p => !(p.key == k))).map (fun p => (p.key, p.element)) ∧
      containsKey k c' = false := by
  intro c
  induction c with
  | nil => intro c' hdel; simp [chainDelete] at hdel
  | cons p rest ih =>
      intro c' hdel hnd
      by_cases hp : p.key = k
      · have hpb : (p.key == k) = true := by simpa using hp
        simp only [chainDelete, hpb, if_true, Option.some_inj] at hdel
        subst hdel
        have hknotin : ∀ q ∈ rest, ¬ q.key = k := by
          intro q hq hqk
          simp at hnd
          exact hnd.1 q hq (by rw [hqk, hp])
        have hfilter : rest.filter (fun q => !(q.key == k)) = rest := by
          apply List.filter_eq_self.2
          intro q hq
          simpa using hknotin q hq
        constructor
        · simp [List.filter_cons, hpb, hfilter]
        · simp [containsKey]
          exact hknotin
      · have hpb : (p.key == k) = false := by simpa using hp
        simp only [chainDelete, hpb, Bool.false_eq_true, if_false] at hdel
        rcases hrest : chainDelete hashFn k rest with _ | d
        · rw [hrest] at hdel; simp at hdel
        · rw [hrest] at hdel
          simp at hdel
          have hnd' : (rest.map GoPair.key).Nodup := by
            simp at hnd; exact hnd.2
          rcases ih d hrest hnd' with ⟨ih1, ih2⟩
          subst hdel
          constructor
          · simp [List.filter_cons, hpb, copyPair, ih1]
          · simp [containsKey, copyPair] at ih2 ⊢
            exact ⟨hp, ih2⟩

/-- C3: bucket.Delete of an absent key returns false and changes nothing;
of a present key it returns true, publishes the chain rebuilt from copies
of the predecessors prepended onto the part after the target, decrements
the uint64 size counter by one, and (no key occurring twice in a chain)
the result holds exactly the other keys with their previous elements and
no longer holds the deleted key. -/
theorem bucketDelete_spec {α : Type} (hashFn : String → Nat) :
    (∀ (k : String) (b : Bucket α), containsKey k b.chain = false →
        bucketDelete hashFn k b = (false, b)) ∧
    (∀ (k : String) (b : Bucket α), containsKey k b.chain = true →
        (bucketDelete hashFn k b).1 = true ∧
        (bucketDelete hashFn k b).2.chain =
          (b.chain.takeWhile (fun p => !(p.key == k))).map (copyPair hashFn) ++
            (b.chain.dropWhile (fun p => !(p.key == k))).drop 1 ∧
        (bucketDelete hashFn k b).2.size = (b.size + (U64 - 1)) % U64 ∧
        ((b.chain.map GoPair.key).Nodup →
          (bucketDelete hashFn k b).2.chain.map (fun p => (p.key, p.element)) =
            (b.chain.filter (fun p => !(p.key == k))).map
              (fun p => (p.key, p.element)) ∧
          containsKey k (bucketDelete hashFn k b).2.chain = false)) := by
  constructor
  · intro k b h
    simp [bucketDelete, chainDelete_none_of hashFn k b.chain h]
  · intro k b h
    have hd := chainDelete_eq_take_drop hashFn k b.chain h
    refine ⟨by simp [bucketDelete, hd], by simp [bucketDelete, hd],
      by simp [bucketDelete, hd], ?_⟩
    intro hnd
    rcases chainDelete_some_kv hashFn k b.chain _ hd hnd with ⟨h1, h2⟩
    exact ⟨by simp only [bucketDelete, hd]; exact h1,
      by simp only [bucketDelete, hd]; exact h2⟩

/-- C3 witness: delete the second of two nodes of `bW`, and a miss. -/
theorem bucketDelete_spec_witness :
    bucketDelete hashZero "z" bW = (false, bW) ∧
    containsKey "b" bW.chain = true ∧
    (bW.chain.map GoPair.key).Nodup ∧
    (bucketDelete hashZero "b" bW).1 = true ∧
    containsKey "b" (bucketDelete hashZero "b" bW).2.chain = false ∧
    (bucketDelete hashZero "b" bW).2.size = (bW.size + (U64 - 1)) % U64 :=
  ⟨(bucketDelete_spec hashZero).1 "z" bW (by decide), by decide, by decide,
   ((bucketDelete_spec hashZero).2 "b" bW (by decide)).1,
   (((bucketDelete_spec hashZero).2 "b" bW (by decide)).2.2.2 (by decide)).2,
   ((bucketDelete_spec hashZero).2 "b" bW (by decide)).2.2.1⟩

/-- C5 counterexample: a put whose redistribute step panicked still returns
`(true, nil)` — the error produced inside segment.redistribute is discarded
by segment.Put and never reaches the caller, contrary to the claim's
"surfaces to the immediate caller". -/
theorem redistribute_error_not_surfaced_cex :
    (segmentPut pP sP).2 = sP2 ∧
    segmentRedistribute 1 1 sP2 = (sP2, some (newPairRedistributorError ("boom"))) ∧
    (segmentPut pP sP).1 = (true, none) :=
  ⟨rfl, rfl, rfl⟩

/-- C5 amended: any fault in the redistributor is caught inside
segment.redistribute and converted to a PairRedistributorError with the
segment left exactly as it was (no partial swap); segment.Put, however,
discards that error, so its caller always receives a nil error. -/
theorem redistribute_caught_state_preserved {α : Type} :
    (∀ (pairTotal bucketSize : Nat) (s : Segment α) (msg : String),
        s.redis pairTotal bucketSize s.buckets = Except.error msg →
        segmentRedistribute pairTotal bucketSize s =
          (s, some (newPairRedistributorError msg))) ∧
    (∀ (p : GoPair α) (s : Segment α), (segmentPut p s).1.2 = none) := by
  constructor
  · intro pairTotal bucketSize s msg h
    simp [segmentRedistribute, h]
  · intro p s
    dsimp only [segmentPut]
    split
    · rfl
    · rfl

/-- C5 witness for the amended statement. -/
theorem redistribute_caught_state_preserved_witness :
    sP2.redis 1 1 sP2.buckets = Except.error ("boom") ∧
    segmentRedistribute 1 1 sP2 = (sP2, some (newPairRedistributorError ("boom"))) ∧
    (segmentPut pP sP).1.2 = none :=
  ⟨rfl,
   (redistribute_caught_state_preserved (α := Nat)).1 1 1 sP2 ("boom") rfl,
   (redistribute_caught_state_preserved (α := Nat)).2 pP sP⟩

/-- C8: the constructor fails with an IllegalParameterError exactly when the
concurrency is nonpositive or exceeds MAX_CONCURRENCY; otherwise it builds a
map with exactly `concurrency` segments, each a fresh segment with the
default bucket number (16 buckets) and the given redistributor (or the
default one when none is given). -/
theorem newConcurrentMap_spec {α : Type} (pr : Option (Redistrib α)) :
    (∀ c : Int, c ≤ 0 ∨ MAX_CONCURRENCY < c →
        NewConcurrentMap c pr = Except.error (newIllegalParameterError
          (if c ≤ 0 then "concurrency is too small" else "concurrency is too large"))) ∧
    (∀ c : Int, 0 < c → c ≤ MAX_CONCURRENCY →
        NewConcurrentMap c pr = Except.ok
          { concurrency := c.toNat
            segments := List.replicate c.toNat (newSegment DEFAULT_BUCKET_NUMBER pr)
            total := 0 } ∧
        (newSegment (α := α) DEFAULT_BUCKET_NUMBER pr).bucketsLen = 16 ∧
        (newSegment (α := α) DEFAULT_BUCKET_NUMBER pr).buckets =
          List.replicate 16 emptyBucket ∧
        (newSegment (α := α) DEFAULT_BUCKET_NUMBER pr).redis =
          pr.getD defaultRedistributor) := by
  constructor
  · intro c hc
    rcases hc with hc | hc
    · simp [NewConcurrentMap, hc]
    · have hns : ¬ (c ≤ 0) := by
        unfold MAX_CONCURRENCY at hc; omega
      simp [NewConcurrentMap, hns, hc, not_lt_of_gt hc]
  · intro c h0 hm
    have hns : ¬ (c ≤ 0) := by omega
    have hnl : ¬ (MAX_CONCURRENCY < c) := not_lt.2 hm
    refine ⟨by simp [NewConcurrentMap, hns, hnl], rfl, rfl, rfl⟩

/-- C8 witness: rejection at 0 and success at 2. -/
theorem newConcurrentMap_spec_witness :
    NewConcurrentMap (α := Nat) 0 none = Except.error (newIllegalParameterError
      (if (0 : Int) ≤ 0 then "concurrency is too small" else "concurrency is too large")) ∧
    NewConcurrentMap (α := Nat) 2 none = Except.ok
      { concurrency := (2 : Int).toNat
        segments := List.replicate (2 : Int).toNat (newSegment DEFAULT_BUCKET_NUMBER none)
        total := 0 } :=
  ⟨(newConcurrentMap_spec none).1 0 (Or.inl (by norm_num)),
   ((newConcurrentMap_spec none).2 2 (by norm_num) (by decide)).1⟩

/-- getD after set at the same (in-range) index. -/
theorem getD_set_self {β : Type} :
    ∀ (l : List β) (i : Nat) (x d : β), i < l.length → (l.set i x).getD i d = x := by
  intro l
  induction l with
  | nil => intro i x d h; simp at h
  | cons a t ih =>
      intro i x d h
      cases i with
      | zero => rfl
      | succ j => exact ih j x d (by simpa using h)

/-- getD after set at a different index. -/
theorem getD_set_ne {β : Type} :
    ∀ (l : List β) (i j : Nat) (x d : β), i ≠ j →
      (l.set i x).getD j d = l.getD j d := by
  intro l
  induction l with
  | nil => intro i j x d _; rfl
  | cons a t ih =>
      intro i j x d hij
      cases i with
      | zero =>
          cases j with
          | zero => exact absurd rfl hij
          | succ j' => rfl
      | succ i' =>
          cases j with
          | zero => rfl
          | succ j' => exact ih i' j' x d (fun he => hij (by rw [he]))

/-- An in-range getD is a member. -/
theorem getD_mem {β : Type} :
    ∀ (l : List β) (i : Nat) (d : β), i < l.length → l.getD i d ∈ l := by
  intro l
  induction l with
  | nil => intro i d h; simp at h
  | cons a t ih =>
      intro i d h
      cases i with
      | zero => exact List.mem_cons_self a t
      | succ j => exact List.mem_cons_of_mem a (ih j d (by simpa using h))

/-- Members of a set-updated list. -/
theorem mem_set_elim {β : Type} :
    ∀ (l : List β) (i : Nat) (x y : β), y ∈ l.set i x → y ∈ l ∨ y = x := by
  intro l
  induction l with
  | nil => intro i x y h; simp at h
  | cons a t ih =>
      intro i x y h
      cases i with
      | zero =>
          rcases List.mem_cons.1 h with h | h
          · exact Or.inr h
          · exact Or.inl (List.mem_cons_of_mem a h)
      | succ j =>
          rcases List.mem_cons.1 h with h | h
          · exact Or.inl (h ▸ List.mem_cons_self a t)
          · rcases ih j x y h with h | h
            · exact Or.inl (List.mem_cons_of_mem a h)
            · exact Or.inr h

/-- getD on a replicate list. -/
theorem getD_replicate {β : Type} :
    ∀ (n i : Nat) (x d : β), i < n → (List.replicate n x).getD i d = x := by
  intro n
  induction n with
  | zero => intro i x d h; simp at h
  | succ n ih =>
      intro i x d h
      cases i with
      | zero => rfl
      | succ j => exact ih j x d (by omega)

/-- bucketsContents distributes over append. -/
theorem bucketsContents_append {α : Type} :
    ∀ (l1 l2 : List (Bucket α)),
      bucketsContents (l1 ++ l2) = bucketsContents l1 ++ bucketsContents l2 := by
  intro l1 l2
  induction l1 with
  | nil => rfl
  | cons b t ih => simp [bucketsContents, ih]

/-- Decomposition of the contents of a bucket slice around an index. -/
theorem bucketsContents_decomp {α : Type} :
    ∀ (bs : List (Bucket α)) (i : Nat), i < bs.length →
      bucketsContents bs =
        bucketsContents (bs.take i) ++ (bs.getD i emptyBucket).chain ++
          bucketsContents (bs.drop (i + 1)) := by
  intro bs
  induction bs with
  | nil => intro i h; simp at h
  | cons b t ih =>
      intro i h
      cases i with
      | zero => simp [bucketsContents]
      | succ j =>
          have hj : j < t.length := by simpa using h
          have := ih j hj
          simp only [List.take_succ_cons, List.drop_succ_cons, bucketsContents,
            List.getD_cons_succ]
          rw [this]
          simp [List.append_assoc]

/-- Contents of a bucket slice after a set, decomposed. -/
theorem bucketsContents_set {α : Type} :
    ∀ (bs : List (Bucket α)) (i : Nat) (b : Bucket α), i < bs.length →
      bucketsContents (bs.set i b) =
        bucketsContents (bs.take i) ++ b.chain ++
          bucketsContents (bs.drop (i + 1)) := by
  intro bs
  induction bs with
  | nil => intro i b h; simp at h
  | cons b0 t ih =>
      intro i b h
      cases i with
      | zero => simp [bucketsContents]
      | succ j =>
          have hj : j < t.length := by simpa using h
          have := ih j b hj
          simp only [List.set_cons_succ, List.take_succ_cons, List.drop_succ_cons,
            bucketsContents]
          rw [this]
          simp [List.append_assoc]

/-- Membership in the contents of a bucket slice. -/
theorem mem_bucketsContents {α : Type} :
    ∀ (bs : List (Bucket α)) (q : GoPair α),
      q ∈ bucketsContents bs ↔
        ∃ i, i < bs.length ∧ q ∈ (bs.getD i emptyBucket).chain := by
  intro bs
  induction bs with
  | nil =>
      intro q
      constructor
      · intro h; simp [bucketsContents] at h
      · intro ⟨i, hi, _⟩; simp at hi
  | cons b t ih =>
      intro q
      constructor
      · intro h
        rcases List.mem_append.1 h with h | h
        · exact ⟨0, by simp, h⟩
        · rcases (ih q).1 h with ⟨i, hi, hq⟩
          exact ⟨i + 1, by simpa using hi, hq⟩
      · intro ⟨i, hi, hq⟩
        cases i with
        | zero => exact List.mem_append.2 (Or.inl hq)
        | succ j =>
            exact List.mem_append.2 (Or.inr ((ih q).2 ⟨j, by simpa using hi, hq⟩))

/-- A member with the sought key witnesses containsKey. -/
theorem containsKey_eq_true_of {α : Type} (k : String) (c : List (GoPair α))
    (q : GoPair α) (hq : q ∈ c) (hk : q.key = k) : containsKey k c = true := by
  simp [containsKey]
  exact ⟨q, hq, hk⟩

/-- find? returns the unique node with the sought key when chain keys are
nodup. -/
theorem find?_eq_some_of_nodup_keys {α : Type} (k : String) :
    ∀ (c : List (GoPair α)) (p : GoPair α), (c.map GoPair.key).Nodup →
      p ∈ c → p.key = k → c.find? (fun q => q.key == k) = some p := by
  intro c
  induction c with
  | nil => intro p _ hp; simp at hp
  | cons q rest ih =>
      intro p hnd hp hk
      by_cases hq : q.key = k
      · have hpq : p = q := by
          rcases List.mem_cons.1 hp with h | h
          · exact h
          · exfalso
            simp at hnd
            exact hnd.1 p h (by rw [hk, hq])
        subst hpq
        have hqb : (p.key == k) = true := by simpa using hk
        simp [List.find?, hqb]
      · have hqb : (q.key == k) = false := by simpa using hq
        have hp' : p ∈ rest := by
          rcases List.mem_cons.1 hp with h | h
          · exact absurd (h ▸ hk) hq
          · exact h
        have hnd' : (rest.map GoPair.key).Nodup := by simp at hnd; exact hnd.2
        simp [List.find?, hqb, ih p hnd' hp' hk]

/-- A pair stored in a well-formed segment is reachable by GetWithHash at
the hash of its key. -/
theorem segmentGetWithHash_of_mem {α : Type} (hashFn : String → Nat)
    (s : Segment α) (k : String) (p : GoPair α) (hwf : SegWF hashFn s)
    (hp : p ∈ segContents s) (hk : p.key = k) :
    segmentGetWithHash k (hashFn k) s = some p := by
  obtain ⟨hlen, hpos, hplace, hnd⟩ := hwf
  obtain ⟨i, hi, hpi⟩ := (mem_bucketsContents s.buckets p).1 hp
  obtain ⟨hhash, hmod⟩ := hplace i hi p hpi
  have hkey : hashFn k = p.hash := by rw [← hk, hhash]
  have hidx : hashFn k % s.bucketsLen = i := by rw [hkey, hlen, hmod]
  have hdecomp := bucketsContents_decomp s.buckets i hi
  have hndchain : ((s.buckets.getD i emptyBucket).chain.map GoPair.key).Nodup := by
    have hmm : (segContents s).map GoPair.key =
        (bucketsContents (s.buckets.take i)).map GoPair.key ++
          ((s.buckets.getD i emptyBucket).chain.map GoPair.key ++
            (bucketsContents (s.buckets.drop (i + 1))).map GoPair.key) := by
      rw [segContents, hdecomp]
      simp [List.map_append, List.append_assoc]
    rw [hmm] at hnd
    exact hnd.of_append_right.of_append_left
  unfold segmentGetWithHash bucketGet
  rw [hidx]
  exact find?_eq_some_of_nodup_keys k _ p hndchain hpi hk

/-- Under the invariant, every key of the segment lives in its home
bucket. -/
theorem segment_key_in_home_bucket {α : Type} (hashFn : String → Nat)
    (s : Segment α) (hlen : s.bucketsLen = s.buckets.length)
    (hplace : ∀ i, i < s.buckets.length →
      ∀ p ∈ (s.buckets.getD i emptyBucket).chain,
        p.hash = hashFn p.key ∧ p.hash % s.buckets.length = i)
    (q : GoPair α) (hq : q ∈ segContents s) :
    q ∈ (s.buckets.getD (hashFn q.key % s.bucketsLen) emptyBucket).chain := by
  obtain ⟨j, hj, hqj⟩ := (mem_bucketsContents s.buckets q).1 hq
  obtain ⟨hqh, hqm⟩ := hplace j hj q hqj
  have : hashFn q.key % s.bucketsLen = j := by rw [← hqh, hlen, hqm]
  rw [this]
  exact hqj

/-- segment.redistribute preserves well-formedness, leaves the
redistributor alone and permutes the contents (spec contract assumed of
the redistributor). -/
theorem segmentRedistribute_spec {α : Type} (hashFn : String → Nat)
    (t bsz : Nat) (s : Segment α) (hwf : SegWF hashFn s)
    (hgood : GoodRedis s.redis) :
    SegWF hashFn (segmentRedistribute t bsz s).1 ∧
    (segmentRedistribute t bsz s).1.redis = s.redis ∧
    List.Perm (segContents (segmentRedistribute t bsz s).1) (segContents s) := by
  unfold segmentRedistribute
  rcases hr : s.redis t bsz s.buckets with msg | ⟨nb, changed⟩
  · exact ⟨hwf, rfl, List.Perm.refl _⟩
  · cases changed with
    | false => exact ⟨hwf, rfl, List.Perm.refl _⟩
    | true =>
        obtain ⟨hperm, hpos, hplace'⟩ := hgood t bsz s.buckets nb hr
        obtain ⟨hlen, hposold, hplace, hnd⟩ := hwf
        refine ⟨⟨rfl, hpos, ?_, ?_⟩, rfl, hperm⟩
        · intro i hi p hpi
          refine ⟨?_, hplace' i hi p hpi⟩
          have hpin : p ∈ bucketsContents nb :=
            (mem_bucketsContents nb p).2 ⟨i, hi, hpi⟩
          have hpold : p ∈ segContents s := hperm.mem_iff.1 hpin
          obtain ⟨j, hj, hpj⟩ := (mem_bucketsContents s.buckets p).1 hpold
          exact (hplace j hj p hpj).1
        · exact ((hperm.map GoPair.key).nodup_iff).2 hnd

/-- copyPair of a pair already carrying the hash of its key is the pair. -/
theorem copyPair_eq_self {α : Type} (hashFn : String → Nat) (q : GoPair α)
    (h : q.hash = hashFn q.key) : copyPair hashFn q = q := by
  rcases q with ⟨key, hash, el⟩
  simp only at h
  simp [copyPair, h]

/-- Mapping copyPair over pairs that already carry their key's hash is the
identity. -/
theorem map_copyPair_eq_self {α : Type} (hashFn : String → Nat) :
    ∀ (c : List (GoPair α)), (∀ q ∈ c, q.hash = hashFn q.key) →
      c.map (copyPair hashFn) = c := by
  intro c
  induction c with
  | nil => intro _; rfl
  | cons q rest ih =>
      intro h
      simp [copyPair_eq_self hashFn q (h q (by simp)),
        ih (fun x hx => h x (by simp [hx]))]

/-- Structure of a successful chainDelete: the chain splits around the
first occurrence of the key, and the rebuilt chain is the copied front on
the untouched tail. -/
theorem chainDelete_some_struct {α : Type} (hashFn : String → Nat)
    (k : String) :
    ∀ (c c' : List (GoPair α)), chainDelete hashFn k c = some c' →
      ∃ c1 t c2, c = c1 ++ t :: c2 ∧ (∀ q ∈ c1, q.key ≠ k) ∧ t.key = k ∧
        c' = c1.map (copyPair hashFn) ++ c2 := by
  intro c
  induction c with
  | nil => intro c' h; simp [chainDelete] at h
  | cons p rest ih =>
      intro c' hdel
      by_cases hp : p.key = k
      · have hpb : (p.key == k) = true := by simpa using hp
        simp only [chainDelete, hpb, if_true, Option.some_inj] at hdel
        exact ⟨[], p, rest, by simp, by simp, hp, by simp [hdel.symm]⟩
      · have hpb : (p.key == k) = false := by simpa using hp
        simp only [chainDelete, hpb, Bool.false_eq_true, if_false] at hdel
        rcases hrest : chainDelete hashFn k rest with _ | d
        · rw [hrest] at hdel; simp at hdel
        · rw [hrest] at hdel
          simp at hdel
          obtain ⟨c1, t, c2, hc, h1, ht, hd⟩ := ih d hrest
          refine ⟨p :: c1, t, c2, by simp [hc], ?_, ht, ?_⟩
          · intro q hq
            rcases List.mem_cons.1 hq with h | h
            · exact h ▸ hp
            · exact h1 q h
          · rw [← hdel, hd]; simp

/-- The keys of a chainReplaceFirst result are the original keys. -/
theorem chainReplaceFirst_key_map {α : Type} (k : String) (v : α) :
    ∀ (c : List (GoPair α)),
      (chainReplaceFirst k v c).map GoPair.key = c.map GoPair.key := by
  intro c
  induction c with
  | nil => rfl
  | cons p rest ih =>
      by_cases hp : p.key = k
      · simp [chainReplaceFirst, (by simpa using hp : (p.key == k) = true)]
      · simp [chainReplaceFirst, (by simpa using hp : (p.key == k) = false), ih]

/-- A node whose key is not the replaced one survives chainReplaceFirst
unchanged. -/
theorem chainReplaceFirst_mem {α : Type} (k : String) (v : α) :
    ∀ (c : List (GoPair α)) (q : GoPair α), q ∈ c → q.key ≠ k →
      q ∈ chainReplaceFirst k v c := by
  intro c
  induction c with
  | nil => intro q hq; simp at hq
  | cons p rest ih =>
      intro q hq hqk
      by_cases hp : p.key = k
      · simp only [chainReplaceFirst, (by simpa using hp : (p.key == k) = true),
          if_true]
        rcases List.mem_cons.1 hq with h | h
        · exact absurd (h ▸ hqk) (by simp [hp])
        · exact List.mem_cons_of_mem _ h
      · simp only [chainReplaceFirst, (by simpa using hp : (p.key == k) = false),
          Bool.false_eq_true, if_false]
        rcases List.mem_cons.1 hq with h | h
        · exact h ▸ List.mem_cons_self _ _
        · exact List.mem_cons_of_mem _ (ih q h hqk)

/-- Every node of a chainReplaceFirst result shares key and hash with an
original node. -/
theorem chainReplaceFirst_keyHash {α : Type} (k : String) (v : α) :
    ∀ (c : List (GoPair α)) (q : GoPair α), q ∈ chainReplaceFirst k v c →
      ∃ x ∈ c, q.key = x.key ∧ q.hash = x.hash := by
  intro c
  induction c with
  | nil => intro q hq; simp [chainReplaceFirst] at hq
  | cons p rest ih =>
      intro q hq
      by_cases hp : p.key = k
      · simp only [chainReplaceFirst, (by simpa using hp : (p.key == k) = true),
          if_true] at hq
        rcases List.mem_cons.1 hq with h | h
        · exact ⟨p, by simp, by simp [h]⟩
        · exact ⟨q, List.mem_cons_of_mem _ h, rfl, rfl⟩
      · simp only [chainReplaceFirst, (by simpa using hp : (p.key == k) = false),
          Bool.false_eq_true, if_false] at hq
        rcases List.mem_cons.1 hq with h | h
        · exact ⟨p, by simp, by simp [h]⟩
        · obtain ⟨x, hx, h1, h2⟩ := ih q h
          exact ⟨x, List.mem_cons_of_mem _ hx, h1, h2⟩

/-- Unfolding equation of segment.Put on an inserting bucket.Put. -/
theorem segmentPut_eq_insert {α : Type} (p : GoPair α) (s : Segment α)
    (bNew : Bucket α)
    (h : bucketPut p (s.buckets.getD (p.hash % s.bucketsLen) emptyBucket) =
      (true, bNew)) :
    segmentPut p s = ((true, none),
      (segmentRedistribute ((s.pairTotal + 1) % U64) bNew.size
        { s with buckets := s.buckets.set (p.hash % s.bucketsLen) bNew
                 pairTotal := (s.pairTotal + 1) % U64 }).1) := by
  dsimp only [segmentPut]
  rw [h]
  rfl

/-- Unfolding equation of segment.Put on an updating bucket.Put. -/
theorem segmentPut_eq_update {α : Type} (p : GoPair α) (s : Segment α)
    (bNew : Bucket α)
    (h : bucketPut p (s.buckets.getD (p.hash % s.bucketsLen) emptyBucket) =
      (false, bNew)) :
    segmentPut p s = ((false, none),
      { s with buckets := s.buckets.set (p.hash % s.bucketsLen) bNew }) := by
  dsimp only [segmentPut]
  rw [h]
  rfl

/-- Unfolding equation of bucket.Delete on a successful chainDelete. -/
theorem bucketDelete_eq_some {α : Type} (hashFn : String → Nat) (k : String)
    (b : Bucket α) (c' : List (GoPair α))
    (h : chainDelete hashFn k b.chain = some c') :
    bucketDelete hashFn k b =
      (true, { chain := c', size := (b.size + (U64 - 1)) % U64 }) := by
  dsimp only [bucketDelete]
  rw [h]

/-- Unfolding equation of bucket.Delete on a failed chainDelete. -/
theorem bucketDelete_eq_none {α : Type} (hashFn : String → Nat) (k : String)
    (b : Bucket α) (h : chainDelete hashFn k b.chain = none) :
    bucketDelete hashFn k b = (false, b) := by
  dsimp only [bucketDelete]
  rw [h]

/-- Unfolding equation of segment.Delete on a hit. -/
theorem segmentDelete_eq_found {α : Type} (hashFn : String → Nat) (k : String)
    (s : Segment α) (bNew : Bucket α)
    (h : bucketDelete hashFn k
        (s.buckets.getD (hashFn k % s.bucketsLen) emptyBucket) = (true, bNew)) :
    segmentDelete hashFn k s = (true,
      (segmentRedistribute ((s.pairTotal + (U64 - 1)) % U64) bNew.size
        { s with buckets := s.buckets.set (hashFn k % s.bucketsLen) bNew
                 pairTotal := (s.pairTotal + (U64 - 1)) % U64 }).1) := by
  dsimp only [segmentDelete]
  rw [h]
  rfl

/-- Unfolding equation of segment.Delete on a miss. -/
theorem segmentDelete_eq_missing {α : Type} (hashFn : String → Nat) (k : String)
    (s : Segment α) (bNew : Bucket α)
    (h : bucketDelete hashFn k
        (s.buckets.getD (hashFn k % s.bucketsLen) emptyBucket) = (false, bNew)) :
    segmentDelete hashFn k s = (false, s) := by
  dsimp only [segmentDelete]
  rw [h]
  rfl

/-- Well-formedness of a segment after replacing one bucket, from local
facts about the new bucket and the keys of the whole new contents. -/
theorem segWF_set {α : Type} (hashFn : String → Nat) (s : Segment α) (i : Nat)
    (b : Bucket α) (npt : Nat)
    (hlen : s.bucketsLen = s.buckets.length)
    (hpos : 0 < s.buckets.length)
    (hplace : ∀ j, j < s.buckets.length →
      ∀ p ∈ (s.buckets.getD j emptyBucket).chain,
        p.hash = hashFn p.key ∧ p.hash % s.buckets.length = j)
    (hi : i < s.buckets.length)
    (hb : ∀ q ∈ b.chain, q.hash = hashFn q.key ∧ q.hash % s.buckets.length = i)
    (hnd : ((bucketsContents (s.buckets.set i b)).map GoPair.key).Nodup) :
    SegWF hashFn { s with buckets := s.buckets.set i b, pairTotal := npt } := by
  refine ⟨by simpa using hlen, by simpa using hpos, ?_, by simpa [segContents] using hnd⟩
  intro j hj q hq
  dsimp only at hj hq ⊢
  simp only [List.length_set] at hj ⊢
  by_cases hij : i = j
  · subst hij
    rw [getD_set_self s.buckets i b _ hi] at hq
    exact hb q hq
  · rw [getD_set_ne s.buckets i j b _ hij] at hq
    exact hplace j hj q hq

/-- Consing a new head onto one bucket permutes the contents by a global
cons. -/
theorem contents_set_perm_insert {α : Type} (s : Segment α) (i : Nat)
    (p : GoPair α) (nsz : Nat) (hi : i < s.buckets.length) :
    List.Perm
      (bucketsContents (s.buckets.set i
        { chain := p :: (s.buckets.getD i emptyBucket).chain, size := nsz }))
      (p :: bucketsContents s.buckets) := by
  rw [bucketsContents_set s.buckets i _ hi, bucketsContents_decomp s.buckets i hi]
  dsimp only
  simp only [List.append_assoc, List.cons_append]
  exact List.perm_middle

/-- Membership transfer into a one-bucket-replaced slice. -/
theorem mem_contents_set {α : Type} (bs : List (Bucket α)) (i : Nat)
    (b : Bucket α) (hi : i < bs.length) (q : GoPair α)
    (hq : q ∈ bucketsContents bs)
    (hmid : q ∈ (bs.getD i emptyBucket).chain → q ∈ b.chain) :
    q ∈ bucketsContents (bs.set i b) := by
  rw [bucketsContents_decomp bs i hi] at hq
  rw [bucketsContents_set bs i b hi]
  rcases List.mem_append.1 hq with hq1 | hq1
  · rcases List.mem_append.1 hq1 with hq2 | hq2
    · exact List.mem_append.2 (Or.inl (List.mem_append.2 (Or.inl hq2)))
    · exact List.mem_append.2 (Or.inl (List.mem_append.2 (Or.inr (hmid hq2))))
  · exact List.mem_append.2 (Or.inr hq1)

/-- Replacing a bucket by one with the same keys keeps the contents keys. -/
theorem keys_contents_set_eq {α : Type} (bs : List (Bucket α)) (i : Nat)
    (b : Bucket α) (hi : i < bs.length)
    (hkeys : b.chain.map GoPair.key = (bs.getD i emptyBucket).chain.map GoPair.key) :
    (bucketsContents (bs.set i b)).map GoPair.key =
      (bucketsContents bs).map GoPair.key := by
  rw [bucketsContents_set bs i b hi, bucketsContents_decomp bs i hi]
  simp [List.map_append, hkeys]

/-- Replacing a bucket by one whose keys form a sublist keeps nodup. -/
theorem nodup_keys_contents_set_sub {α : Type} (bs : List (Bucket α)) (i : Nat)
    (b : Bucket α) (hi : i < bs.length)
    (hsub : List.Sublist (b.chain.map GoPair.key)
      ((bs.getD i emptyBucket).chain.map GoPair.key))
    (hnd : ((bucketsContents bs).map GoPair.key).Nodup) :
    ((bucketsContents (bs.set i b)).map GoPair.key).Nodup := by
  rw [bucketsContents_set bs i b hi]
  rw [bucketsContents_decomp bs i hi] at hnd
  simp only [List.map_append] at hnd ⊢
  exact hnd.sublist (((List.Sublist.refl _).append hsub).append (List.Sublist.refl _))

/-- segment.Put on a key absent from its bucket: reports (true, nil),
preserves well-formedness and the redistributor, and the new contents are
a permutation of the pair consed on the old contents. -/
theorem segmentPut_insert_spec {α : Type} (hashFn : String → Nat)
    (p : GoPair α) (s : Segment α) (hwf : SegWF hashFn s)
    (hgood : GoodRedis s.redis) (hph : p.hash = hashFn p.key)
    (hck : containsKey p.key
      (s.buckets.getD (p.hash % s.bucketsLen) emptyBucket).chain = false) :
    (segmentPut p s).1 = (true, none) ∧
    SegWF hashFn (segmentPut p s).2 ∧
    (segmentPut p s).2.redis = s.redis ∧
    List.Perm (segContents (segmentPut p s).2) (p :: segContents s) := by
  obtain ⟨hlen, hpos, hplace, hnd⟩ := hwf
  have hilt : p.hash % s.bucketsLen < s.buckets.length := by
    rw [hlen]; exact Nat.mod_lt _ hpos
  have hbp := bucketPut_insert p
    (s.buckets.getD (p.hash % s.bucketsLen) emptyBucket) hck
  rw [segmentPut_eq_insert p s _ hbp]
  have hperm2 := contents_set_perm_insert s (p.hash % s.bucketsLen) p
    (((s.buckets.getD (p.hash % s.bucketsLen) emptyBucket).size + 1) % U64) hilt
  have hnotk : p.key ∉ (bucketsContents s.buckets).map GoPair.key := by
    intro hmem
    obtain ⟨q, hq, hqk⟩ := List.mem_map.1 hmem
    have hq' := segment_key_in_home_bucket hashFn s hlen hplace q hq
    rw [hqk, ← hph] at hq'
    have hcontains : containsKey p.key
        (s.buckets.getD (p.hash % s.bucketsLen) emptyBucket).chain = true :=
      containsKey_eq_true_of p.key _ q hq' hqk
    rw [hck] at hcontains
    cases hcontains
  have hnd2 : ((bucketsContents (s.buckets.set (p.hash % s.bucketsLen)
      { chain := p :: (s.buckets.getD (p.hash % s.bucketsLen) emptyBucket).chain
        size := ((s.buckets.getD (p.hash % s.bucketsLen) emptyBucket).size + 1) % U64 })).map
      GoPair.key).Nodup := by
    refine ((hperm2.map GoPair.key).nodup_iff).2 ?_
    simp only [List.map_cons]
    exact List.nodup_cons.2 ⟨hnotk, hnd⟩
  have hwf2 := segWF_set hashFn s (p.hash % s.bucketsLen)
    { chain := p :: (s.buckets.getD (p.hash % s.bucketsLen) emptyBucket).chain
      size := ((s.buckets.getD (p.hash % s.bucketsLen) emptyBucket).size + 1) % U64 }
    ((s.pairTotal + 1) % U64) hlen hpos hplace hilt
    (by
      intro q hq
      dsimp only at hq
      rcases List.mem_cons.1 hq with h | h
      · subst h
        refine ⟨hph, ?_⟩
        rw [← hlen]
      · exact hplace _ hilt q h)
    hnd2
  refine ⟨rfl, ?_, ?_, ?_⟩
  · exact (segmentRedistribute_spec hashFn _ _ _ hwf2 hgood).1
  · exact (segmentRedistribute_spec hashFn _ _ _ hwf2 hgood).2.1
  · exact ((segmentRedistribute_spec hashFn _ _ _ hwf2 hgood).2.2).trans hperm2

/-- segment.Put on a key already present in its bucket: reports
(false, nil), replaces only that node's element, preserves
well-formedness and the redistributor, and keeps every node with a
different key. -/
theorem segmentPut_update_spec {α : Type} (hashFn : String → Nat)
    (p : GoPair α) (s : Segment α) (hwf : SegWF hashFn s)
    (hck : containsKey p.key
      (s.buckets.getD (p.hash % s.bucketsLen) emptyBucket).chain = true) :
    (segmentPut p s).1 = (false, none) ∧
    SegWF hashFn (segmentPut p s).2 ∧
    (segmentPut p s).2.redis = s.redis ∧
    (∀ q ∈ segContents s, q.key ≠ p.key → q ∈ segContents (segmentPut p s).2) := by
  obtain ⟨hlen, hpos, hplace, hnd⟩ := hwf
  have hilt : p.hash % s.bucketsLen < s.buckets.length := by
    rw [hlen]; exact Nat.mod_lt _ hpos
  have hbp := bucketPut_update p
    (s.buckets.getD (p.hash % s.bucketsLen) emptyBucket) hck
  rw [segmentPut_eq_update p s _ hbp]
  have hwf2 := segWF_set hashFn s (p.hash % s.bucketsLen)
    { s.buckets.getD (p.hash % s.bucketsLen) emptyBucket with
      chain := chainReplaceFirst p.key p.element
        (s.buckets.getD (p.hash % s.bucketsLen) emptyBucket).chain }
    s.pairTotal hlen hpos hplace hilt
    (by
      intro q hq
      dsimp only at hq
      obtain ⟨x, hx, h1, h2⟩ := chainReplaceFirst_keyHash p.key p.element _ q hq
      obtain ⟨hxh, hxm⟩ := hplace _ hilt x hx
      exact ⟨by rw [h2, hxh, h1], by rw [h2]; exact hxm⟩)
    (by
      rw [keys_contents_set_eq s.buckets _ _ hilt
        (by dsimp only; exact chainReplaceFirst_key_map p.key p.element _)]
      exact hnd)
  refine ⟨rfl, ?_, rfl, ?_⟩
  · exact hwf2
  · intro q hq hqk
    exact mem_contents_set s.buckets _ _ hilt q hq
      (fun hmid => chainReplaceFirst_mem p.key p.element _ q hmid hqk)

/-- segment.Delete preserves well-formedness and the redistributor and
keeps every node whose key differs from the deleted one. -/
theorem segmentDelete_spec {α : Type} (hashFn : String → Nat) (k : String)
    (s : Segment α) (hwf : SegWF hashFn s) (hgood : GoodRedis s.redis) :
    SegWF hashFn (segmentDelete hashFn k s).2 ∧
    (segmentDelete hashFn k s).2.redis = s.redis ∧
    (∀ q ∈ segContents s, q.key ≠ k → q ∈ segContents (segmentDelete hashFn k s).2) := by
  obtain ⟨hlen, hpos, hplace, hnd⟩ := hwf
  have hilt : hashFn k % s.bucketsLen < s.buckets.length := by
    rw [hlen]; exact Nat.mod_lt _ hpos
  rcases hcd : chainDelete hashFn k
      (s.buckets.getD (hashFn k % s.bucketsLen) emptyBucket).chain with _ | c'
  · rw [segmentDelete_eq_missing hashFn k s _ (bucketDelete_eq_none hashFn k _ hcd)]
    exact ⟨⟨hlen, hpos, hplace, hnd⟩, rfl, fun q hq _ => hq⟩
  · obtain ⟨c1, t, c2, hcc, hc1, ht, hcval⟩ :=
      chainDelete_some_struct hashFn k _ c' hcd
    have hq1 : ∀ q ∈ c1, q.hash = hashFn q.key := fun q hq =>
      (hplace _ hilt q (by rw [hcc]; exact List.mem_append.2 (Or.inl hq))).1
    have hc'' : c' = c1 ++ c2 := by
      rw [hcval, map_copyPair_eq_self hashFn c1 hq1]
    rw [segmentDelete_eq_found hashFn k s _ (bucketDelete_eq_some hashFn k _ c' hcd)]
    have hmemc : ∀ q ∈ c', q ∈
        (s.buckets.getD (hashFn k % s.bucketsLen) emptyBucket).chain := by
      intro q hq
      rw [hc''] at hq
      rw [hcc]
      rcases List.mem_append.1 hq with h | h
      · exact List.mem_append.2 (Or.inl h)
      · exact List.mem_append.2 (Or.inr (List.mem_cons_of_mem t h))
    have hwf2 := segWF_set hashFn s (hashFn k % s.bucketsLen)
      { chain := c'
        size := ((s.buckets.getD (hashFn k % s.bucketsLen) emptyBucket).size +
          (U64 - 1)) % U64 }
      ((s.pairTotal + (U64 - 1)) % U64) hlen hpos hplace hilt
      (by
        intro q hq
        dsimp only at hq
        exact hplace _ hilt q (hmemc q hq))
      (nodup_keys_contents_set_sub s.buckets _ _ hilt
        (by
          dsimp only
          rw [hc'', hcc]
          simp only [List.map_append, List.map_cons]
          exact (List.Sublist.refl _).append (List.sublist_cons_self _ _))
        hnd)
    refine ⟨?_, ?_, ?_⟩
    · exact (segmentRedistribute_spec hashFn _ _ _ hwf2 hgood).1
    · exact (segmentRedistribute_spec hashFn _ _ _ hwf2 hgood).2.1
    · intro q hq hqk
      have hq2 : q ∈ bucketsContents (s.buckets.set (hashFn k % s.bucketsLen)
          { chain := c'
            size := ((s.buckets.getD (hashFn k % s.bucketsLen) emptyBucket).size +
              (U64 - 1)) % U64 }) := by
        refine mem_contents_set s.buckets _ _ hilt q hq ?_
        intro hmid
        rw [hcc] at hmid
        rw [hc'']
        rcases List.mem_append.1 hmid with h | h
        · exact List.mem_append.2 (Or.inl h)
        · rcases List.mem_cons.1 h with h | h
          · exact absurd (h ▸ hqk) (by simp [ht])
          · exact List.mem_append.2 (Or.inr h)
      exact ((segmentRedistribute_spec hashFn _ _ _ hwf2 hgood).2.2).mem_iff.2 hq2

/-- The shard index is always in range. -/
theorem findSegmentIndex_lt (c h : Nat) (hc : 0 < c) :
    findSegmentIndex c h < c := by
  unfold findSegmentIndex
  by_cases h1 : c = 1
  · simp [h1]
  · rw [if_neg h1]
    have h2 : 0 < c - 1 := by omega
    exact lt_of_lt_of_le (Nat.mod_lt _ h2) (by omega)

/-- With more than one shard, the shard index always stays strictly below
`concurrency - 1`: the last shard is unreachable. -/
theorem findSegmentIndex_lt_pred (c h : Nat) (hc : 1 < c) :
    findSegmentIndex c h < c - 1 := by
  unfold findSegmentIndex
  rw [if_neg (by omega : ¬ c = 1)]
  exact Nat.mod_lt _ (by omega)

/-- The result reported by a non-nil put is the segment's. -/
theorem cmapPut_some_fst {α : Type} (hashFn : String → Nat) (kp : String)
    (w : α) (m : CMap α) :
    (cmapPut hashFn kp (some w) m).1 =
      (segmentPut { key := kp, hash := hashFn kp, element := w }
        (m.segments.getD (findSegmentIndex m.concurrency (hashFn kp))
          dummySegment)).1 := rfl

/-- The segment slice after a non-nil put. -/
theorem cmapPut_some_segments {α : Type} (hashFn : String → Nat) (kp : String)
    (w : α) (m : CMap α) :
    (cmapPut hashFn kp (some w) m).2.segments =
      m.segments.set (findSegmentIndex m.concurrency (hashFn kp))
        (segmentPut { key := kp, hash := hashFn kp, element := w }
          (m.segments.getD (findSegmentIndex m.concurrency (hashFn kp))
            dummySegment)).2 := by
  dsimp only [cmapPut, newPair]
  split
  · rfl
  · rfl

/-- Put never changes the shard count. -/
theorem cmapPut_some_concurrency {α : Type} (hashFn : String → Nat)
    (kp : String) (w : α) (m : CMap α) :
    (cmapPut hashFn kp (some w) m).2.concurrency = m.concurrency := by
  dsimp only [cmapPut, newPair]
  split
  · rfl
  · rfl

/-- The segment slice after a delete. -/
theorem cmapDelete_segments {α : Type} (hashFn : String → Nat) (kd : String)
    (m : CMap α) :
    (cmapDelete hashFn kd m).2.segments =
      m.segments.set (findSegmentIndex m.concurrency (hashFn kd))
        (segmentDelete hashFn kd
          (m.segments.getD (findSegmentIndex m.concurrency (hashFn kd))
            dummySegment)).2 := by
  dsimp only [cmapDelete]
  split
  · rfl
  · rfl

/-- Delete never changes the shard count. -/
theorem cmapDelete_concurrency {α : Type} (hashFn : String → Nat)
    (kd : String) (m : CMap α) :
    (cmapDelete hashFn kd m).2.concurrency = m.concurrency := by
  dsimp only [cmapDelete]
  split
  · rfl
  · rfl

/-- Replacing one segment of a well-formed map by a well-formed segment
with the same redistributor preserves the invariants, and preserves every
stored key other than the touched one. -/
theorem map_update_preserves {α : Type} (hashFn : String → Nat) (m : CMap α)
    (i : Nat) (s' : Segment α) (k0 : String)
    (hpos : 0 < m.concurrency) (hlen : m.segments.length = m.concurrency)
    (hsegs : ∀ s ∈ m.segments, SegWF hashFn s) (hg : AllGood m)
    (hi : i < m.segments.length)
    (hwfs' : SegWF hashFn s')
    (hreds' : s'.redis = (m.segments.getD i dummySegment).redis)
    (hkeep : ∀ q ∈ segContents (m.segments.getD i dummySegment), q.key ≠ k0 →
      q ∈ segContents s')
    (mNew : CMap α)
    (hconc : mNew.concurrency = m.concurrency)
    (hsegsNew : mNew.segments = m.segments.set i s') :
    MapWF hashFn mNew ∧ AllGood mNew ∧
    (∀ k v, k ≠ k0 → HasKV hashFn k v m → HasKV hashFn k v mNew) := by
  have hmemi := getD_mem m.segments i dummySegment hi
  refine ⟨⟨?_, ?_, ?_⟩, ?_, ?_⟩
  · rw [hconc]; exact hpos
  · rw [hsegsNew, List.length_set, hlen, hconc]
  · intro s hs
    rw [hsegsNew] at hs
    rcases mem_set_elim m.segments i s' s hs with h | h
    · exact hsegs s h
    · exact h ▸ hwfs'
  · intro s hs
    rw [hsegsNew] at hs
    rcases mem_set_elim m.segments i s' s hs with h | h
    · exact hg s h
    · rw [h, hreds']
      exact hg _ hmemi
  · intro k v hk ⟨p, hp, hpk, hpe⟩
    refine ⟨p, ?_, hpk, hpe⟩
    rw [hsegsNew, hconc]
    by_cases hij : i = findSegmentIndex m.concurrency (hashFn k)
    · subst hij
      rw [getD_set_self m.segments _ s' dummySegment hi]
      exact hkeep p hp (by rw [hpk]; exact hk)
    · rw [getD_set_ne m.segments i _ s' dummySegment hij]
      exact hp

/-- Applying any single facade operation preserves the map invariants,
never changes the shard count, and keeps every stored key the operation
avoids. -/
theorem applyOp_spec {α : Type} (hashFn : String → Nat) (op : Op α)
    (m : CMap α) (hwf : MapWF hashFn m) (hg : AllGood m) :
    MapWF hashFn (applyOp hashFn m op) ∧ AllGood (applyOp hashFn m op) ∧
    (applyOp hashFn m op).concurrency = m.concurrency ∧
    (∀ k v, avoids k op → HasKV hashFn k v m →
      HasKV hashFn k v (applyOp hashFn m op)) := by
  obtain ⟨hpos, hlen, hsegs⟩ := hwf
  cases op with
  | get kg => exact ⟨⟨hpos, hlen, hsegs⟩, hg, rfl, fun _ _ _ h => h⟩
  | put kp v =>
      cases v with
      | none => exact ⟨⟨hpos, hlen, hsegs⟩, hg, rfl, fun _ _ _ h => h⟩
      | some w =>
          have hi : findSegmentIndex m.concurrency (hashFn kp) < m.segments.length := by
            rw [hlen]; exact findSegmentIndex_lt _ _ hpos
          have hwfs := hsegs _ (getD_mem m.segments _ dummySegment hi)
          have hgood := hg _ (getD_mem m.segments _ dummySegment hi)
          have hsp : SegWF hashFn (segmentPut
                { key := kp, hash := hashFn kp, element := w }
                (m.segments.getD (findSegmentIndex m.concurrency (hashFn kp))
                  dummySegment)).2 ∧
              (segmentPut { key := kp, hash := hashFn kp, element := w }
                (m.segments.getD (findSegmentIndex m.concurrency (hashFn kp))
                  dummySegment)).2.redis =
                (m.segments.getD (findSegmentIndex m.concurrency (hashFn kp))
                  dummySegment).redis ∧
              (∀ q ∈ segContents
                  (m.segments.getD (findSegmentIndex m.concurrency (hashFn kp))
                    dummySegment), q.key ≠ kp →
                q ∈ segContents (segmentPut
                  { key := kp, hash := hashFn kp, element := w }
                  (m.segments.getD (findSegmentIndex m.concurrency (hashFn kp))
                    dummySegment)).2) := by
            cases hck : containsKey kp
                ((m.segments.getD (findSegmentIndex m.concurrency (hashFn kp))
                  dummySegment).buckets.getD
                  (hashFn kp %
                    (m.segments.getD (findSegmentIndex m.concurrency (hashFn kp))
                      dummySegment).bucketsLen) emptyBucket).chain with
            | false =>
                obtain ⟨_, h2, h3, h4⟩ := segmentPut_insert_spec hashFn
                  { key := kp, hash := hashFn kp, element := w }
                  (m.segments.getD (findSegmentIndex m.concurrency (hashFn kp))
                    dummySegment) hwfs hgood rfl hck
                exact ⟨h2, h3, fun q hq _ =>
                  h4.mem_iff.2 (List.mem_cons_of_mem _ hq)⟩
            | true =>
                obtain ⟨_, h2, h3, h4⟩ := segmentPut_update_spec hashFn
                  { key := kp, hash := hashFn kp, element := w }
                  (m.segments.getD (findSegmentIndex m.concurrency (hashFn kp))
                    dummySegment) hwfs hck
                exact ⟨h2, h3, fun q hq hqk => h4 q hq hqk⟩
          obtain ⟨hA, hB, hC⟩ := map_update_preserves hashFn m
            (findSegmentIndex m.concurrency (hashFn kp))
            (segmentPut { key := kp, hash := hashFn kp, element := w }
              (m.segments.getD (findSegmentIndex m.concurrency (hashFn kp))
                dummySegment)).2
            kp hpos hlen hsegs hg hi hsp.1 hsp.2.1 hsp.2.2
            (applyOp hashFn m (Op.put kp (some w)))
            (cmapPut_some_concurrency hashFn kp w m)
            (cmapPut_some_segments hashFn kp w m)
          refine ⟨hA, hB, cmapPut_some_concurrency hashFn kp w m, ?_⟩
          intro k v hav hkv
          exact hC k v (fun he => hav he.symm) hkv
  | del kd =>
      have hi : findSegmentIndex m.concurrency (hashFn kd) < m.segments.length := by
        rw [hlen]; exact findSegmentIndex_lt _ _ hpos
      have hwfs := hsegs _ (getD_mem m.segments _ dummySegment hi)
      have hgood := hg _ (getD_mem m.segments _ dummySegment hi)
      obtain ⟨h2, h3, h4⟩ := segmentDelete_spec hashFn kd
        (m.segments.getD (findSegmentIndex m.concurrency (hashFn kd))
          dummySegment) hwfs hgood
      obtain ⟨hA, hB, hC⟩ := map_update_preserves hashFn m
        (findSegmentIndex m.concurrency (hashFn kd))
        (segmentDelete hashFn kd
          (m.segments.getD (findSegmentIndex m.concurrency (hashFn kd))
            dummySegment)).2
        kd hpos hlen hsegs hg hi h2 h3 h4
        (applyOp hashFn m (Op.del kd))
        (cmapDelete_concurrency hashFn kd m)
        (cmapDelete_segments hashFn kd m)
      refine ⟨hA, hB, cmapDelete_concurrency hashFn kd m, ?_⟩
      intro k v hav hkv
      exact hC k v (fun he => hav he.symm) hkv

/-- Running any sequence of operations that avoids key `kq` preserves the
invariants and the binding of `kq`. -/
theorem runOps_spec {α : Type} (hashFn : String → Nat) (kq : String) (v : α) :
    ∀ (ops : List (Op α)) (m : CMap α), MapWF hashFn m → AllGood m →
      (∀ op ∈ ops, avoids kq op) → HasKV hashFn kq v m →
      MapWF hashFn (runOps hashFn ops m) ∧ AllGood (runOps hashFn ops m) ∧
      HasKV hashFn kq v (runOps hashFn ops m) := by
  intro ops
  induction ops with
  | nil => intro m h1 h2 _ h4; exact ⟨h1, h2, h4⟩
  | cons op rest ih =>
      intro m h1 h2 havoid h4
      obtain ⟨hwfA, hgA, _, hkvA⟩ := applyOp_spec hashFn op m h1 h2
      have h4' := hkvA kq v (havoid op (by simp)) h4
      have hrec := ih (applyOp hashFn m op) hwfA hgA
        (fun o ho => havoid o (by simp [ho])) h4'
      simpa [runOps, List.foldl_cons] using hrec

/-- A put that reported an insert stores its pair in the routed segment. -/
theorem cmapPut_true_hasKV {α : Type} (hashFn : String → Nat) (kp : String)
    (w : α) (m : CMap α) (hwf : MapWF hashFn m) (hg : AllGood m)
    (hok : (cmapPut hashFn kp (some w) m).1.1 = true) :
    HasKV hashFn kp w (cmapPut hashFn kp (some w) m).2 := by
  obtain ⟨hpos, hlen, hsegs⟩ := hwf
  have hi : findSegmentIndex m.concurrency (hashFn kp) < m.segments.length := by
    rw [hlen]; exact findSegmentIndex_lt _ _ hpos
  have hwfs := hsegs _ (getD_mem m.segments _ dummySegment hi)
  have hgood := hg _ (getD_mem m.segments _ dummySegment hi)
  cases hck : containsKey kp
      ((m.segments.getD (findSegmentIndex m.concurrency (hashFn kp))
        dummySegment).buckets.getD
        (hashFn kp %
          (m.segments.getD (findSegmentIndex m.concurrency (hashFn kp))
            dummySegment).bucketsLen) emptyBucket).chain with
  | true =>
      have hfalse := (segmentPut_update_spec hashFn
        { key := kp, hash := hashFn kp, element := w }
        (m.segments.getD (findSegmentIndex m.concurrency (hashFn kp))
          dummySegment) hwfs hck).1
      rw [cmapPut_some_fst, hfalse] at hok
      cases hok
  | false =>
      obtain ⟨_, _, _, h4⟩ := segmentPut_insert_spec hashFn
        { key := kp, hash := hashFn kp, element := w }
        (m.segments.getD (findSegmentIndex m.concurrency (hashFn kp))
          dummySegment) hwfs hgood rfl hck
      refine ⟨{ key := kp, hash := hashFn kp, element := w }, ?_, rfl, rfl⟩
      rw [cmapPut_some_concurrency, cmapPut_some_segments,
        getD_set_self m.segments _ _ dummySegment hi]
      exact h4.mem_iff.2 (List.mem_cons_self _ _)

/-- A stored binding is returned by Get. -/
theorem cmapGet_of_hasKV {α : Type} (hashFn : String → Nat) (kq : String)
    (v : α) (m : CMap α) (hwf : MapWF hashFn m)
    (hkv : HasKV hashFn kq v m) : cmapGet hashFn kq m = some v := by
  obtain ⟨hpos, hlen, hsegs⟩ := hwf
  obtain ⟨p, hp, hpk, hpe⟩ := hkv
  have hi : findSegmentIndex m.concurrency (hashFn kq) < m.segments.length := by
    rw [hlen]; exact findSegmentIndex_lt _ _ hpos
  have hwfs := hsegs _ (getD_mem m.segments _ dummySegment hi)
  have hget := segmentGetWithHash_of_mem hashFn
    (m.segments.getD (findSegmentIndex m.concurrency (hashFn kq)) dummySegment)
    kq p hwfs hp hpk
  unfold cmapGet
  rw [hget]
  simp [hpe]

/-- The never-changing redistributor vacuously satisfies the spec
contract. -/
theorem trivialRedis_good {α : Type} : GoodRedis (trivialRedis (α := α)) := by
  intro t bsz bs nb h
  simp [trivialRedis] at h

/-- C2: on a well-formed map whose redistributors obey the spec contract,
if put(k, v) returns (true, nil), then after any sequence of operations
none of which is a put or delete of k (puts and deletes of other keys and
any gets are allowed), get(k) returns v. -/
theorem put_then_get_returns_value {α : Type} (hashFn : String → Nat)
    (kq : String) (v : α) (m : CMap α) (ops : List (Op α))
    (hwf : MapWF hashFn m) (hg : AllGood m)
    (hput : (cmapPut hashFn kq (some v) m).1 = (true, none))
    (havoid : ∀ op ∈ ops, avoids kq op) :
    cmapGet hashFn kq (runOps hashFn ops (cmapPut hashFn kq (some v) m).2) =
      some v := by
  have hok : (cmapPut hashFn kq (some v) m).1.1 = true := by rw [hput]
  obtain ⟨hwfA, hgA, _, _⟩ := applyOp_spec hashFn (Op.put kq (some v)) m hwf hg
  have hkv := cmapPut_true_hasKV hashFn kq v m hwf hg hok
  obtain ⟨hwfR, _, hkvR⟩ := runOps_spec hashFn kq v ops
    (cmapPut hashFn kq (some v) m).2 hwfA hgA havoid hkv
  exact cmapGet_of_hasKV hashFn kq v _ hwfR hkvR

/-- C2 witness: inserting 5 at "a" into the concrete well-formed map `mW`
and reading it back. -/
theorem put_then_get_returns_value_witness :
    MapWF hashZero mW ∧ AllGood mW ∧
    (cmapPut hashZero "a" (some 5) mW).1 = (true, none) ∧
    cmapGet hashZero "a"
      (runOps hashZero [] (cmapPut hashZero "a" (some 5) mW).2) = some 5 := by
  have hwf : MapWF hashZero mW := by
    unfold MapWF SegWF segContents
    decide
  have hg : AllGood mW := by
    intro s hs
    have hseq : s = { buckets := List.replicate 16 emptyBucket, bucketsLen := 16
                      pairTotal := 0, redis := trivialRedis } := by
      simpa [mW] using hs
    rw [hseq]
    exact trivialRedis_good
  have hput : (cmapPut hashZero "a" (some 5) mW).1 = (true, none) := by decide
  exact ⟨hwf, hg, hput,
    put_then_get_returns_value hashZero "a" 5 mW [] hwf hg hput (by simp)⟩

/-- Any single operation keeps the shard count and either leaves the
segment slice alone or replaces the slice entry at a routed index. -/
theorem applyOp_shape {α : Type} (hashFn : String → Nat) (op : Op α)
    (m : CMap α) :
    (applyOp hashFn m op).concurrency = m.concurrency ∧
    ((applyOp hashFn m op).segments = m.segments ∨
      ∃ kh s', (applyOp hashFn m op).segments =
        m.segments.set (findSegmentIndex m.concurrency kh) s') := by
  cases op with
  | get kg => exact ⟨rfl, Or.inl rfl⟩
  | put kp v =>
      cases v with
      | none => exact ⟨rfl, Or.inl rfl⟩
      | some w =>
          exact ⟨cmapPut_some_concurrency hashFn kp w m,
            Or.inr ⟨hashFn kp, _, cmapPut_some_segments hashFn kp w m⟩⟩
  | del kd =>
      exact ⟨cmapDelete_concurrency hashFn kd m,
        Or.inr ⟨hashFn kd, _, cmapDelete_segments hashFn kd m⟩⟩

/-- C10: on a map built with concurrency c, 1 < c ≤ MAX_CONCURRENCY, the
shard-routing function only ever produces indices below c - 1, and after
any sequence of put/get/delete operations the last segment is still the
untouched freshly constructed segment. -/
theorem last_segment_unreachable {α : Type} (hashFn : String → Nat)
    (c : Int) (pr : Option (Redistrib α)) (m : CMap α) (ops : List (Op α))
    (hc : 1 < c) (hle : c ≤ MAX_CONCURRENCY)
    (hm : NewConcurrentMap c pr = Except.ok m) :
    (∀ keyHash, findSegmentIndex m.concurrency keyHash < m.concurrency - 1) ∧
    (runOps hashFn ops m).segments.getD (m.concurrency - 1) dummySegment =
      newSegment DEFAULT_BUCKET_NUMBER pr := by
  have hns : ¬ (c ≤ 0) := by omega
  have hnl : ¬ (MAX_CONCURRENCY < c) := not_lt.2 hle
  unfold NewConcurrentMap at hm
  rw [if_neg hns, if_neg hnl] at hm
  injection hm with hm
  subst hm
  have h2c : 1 < c.toNat := by omega
  have key : ∀ (opsl : List (Op α)) (m' : CMap α),
      m'.concurrency = c.toNat → m'.segments.length = c.toNat →
      m'.segments.getD (c.toNat - 1) dummySegment =
        newSegment DEFAULT_BUCKET_NUMBER pr →
      (runOps hashFn opsl m').concurrency = c.toNat ∧
      (runOps hashFn opsl m').segments.length = c.toNat ∧
      (runOps hashFn opsl m').segments.getD (c.toNat - 1) dummySegment =
        newSegment DEFAULT_BUCKET_NUMBER pr := by
    intro opsl
    induction opsl with
    | nil => intro m' h1 h2 h3; exact ⟨h1, h2, h3⟩
    | cons op rest ih =>
        intro m' h1 h2 h3
        obtain ⟨hconc, hshape⟩ := applyOp_shape hashFn op m'
        have h1' : (applyOp hashFn m' op).concurrency = c.toNat := by
          rw [hconc, h1]
        have h2' : (applyOp hashFn m' op).segments.length = c.toNat := by
          rcases hshape with hs | ⟨kh, s', hs⟩
          · rw [hs, h2]
          · rw [hs, List.length_set, h2]
        have h3' : (applyOp hashFn m' op).segments.getD (c.toNat - 1)
            dummySegment = newSegment DEFAULT_BUCKET_NUMBER pr := by
          rcases hshape with hs | ⟨kh, s', hs⟩
          · rw [hs]; exact h3
          · rw [h1] at hs
            rw [hs]
            rw [getD_set_ne m'.segments _ _ s' dummySegment
              (by
                have := findSegmentIndex_lt_pred c.toNat kh h2c
                omega)]
            exact h3
        have hrec := ih (applyOp hashFn m' op) h1' h2' h3'
        simpa [runOps, List.foldl_cons] using hrec
  constructor
  · intro keyHash
    exact findSegmentIndex_lt_pred c.toNat keyHash h2c
  · exact (key ops _ rfl (by simp) (getD_replicate c.toNat (c.toNat - 1) _
      dummySegment (by omega))).2.2

/-- C10 witness: concurrency 2 routes hash 77 below index 1, and after a
put the last segment is still the fresh one. -/
theorem last_segment_unreachable_witness :
    NewConcurrentMap (α := Nat) 2 none = Except.ok m2W ∧
    findSegmentIndex m2W.concurrency 77 < m2W.concurrency - 1 ∧
    (runOps hashZero [Op.put "x" (some 1)] m2W).segments.getD
      (m2W.concurrency - 1) dummySegment = newSegment DEFAULT_BUCKET_NUMBER none := by
  have hm : NewConcurrentMap (α := Nat) 2 none = Except.ok m2W := rfl
  refine ⟨hm, ?_, ?_⟩
  · exact (last_segment_unreachable hashZero 2 none m2W
      [Op.put "x" (some 1)] (by decide) (by decide) hm).1 77
  · exact (last_segment_unreachable hashZero 2 none m2W
      [Op.put "x" (some 1)] (by decide) (by decide) hm).2

end GoCmap
